import Mathlib

/-!
# Verification of the DFA simulator (src/DFA.c)

This file embeds the core of `src/DFA.c` — the `DFA` struct and the
operations `createDFA`, `indexOf`, `addTransition`, `checkString` — as
executable Lean definitions, and proves (or refutes) the specification's
claims about them.

Modelling notes.
* C `int` values are modelled as `Int` where they can be negative in the
  reachable states the claims speak about (state identifiers, table cells,
  the unset-cell counter, which the code can drive below zero), and as
  `Nat` where the code only ever derives them from sizes (`states`,
  `characters`, `numberOfFinalStates`).
* `malloc` leaves the transition table uninitialized.  The indeterminate
  initial contents are made explicit: `createDFA` takes a function
  `g : Nat → Nat → Int` giving the arbitrary initial value of each cell.
  Nothing the C standard guarantees about those values is assumed.
* Reading or writing a table row outside `[0, states)` is undefined
  behaviour in the C program.  Reads out of range are modelled as `none`
  (`readCell` returns `Option Int`, and `checkString` returns `none` when
  the evaluation performs such an access); writes out of range are
  modelled as leaving the table unchanged.  No claim below relies on the
  behaviour of an out-of-range *write*; out-of-range *reads* are exactly
  the memory-safety failures one claim is about, and `none` marks them.
-/

namespace DFAC

/-- `#define ERROR_INCOMPLETE_TABLE -22` from the source. -/
def ERROR_INCOMPLETE_TABLE : Int := -22

/-- `#define ERROR_INVALID_CHARACTER_IN_INPUT -20` from the source. -/
def ERROR_INVALID_CHARACTER_IN_INPUT : Int := -20

/-- The `struct dfa` of the source.  `characterSet` is the alphabet array
(of length `characters`), `transitionTable` the `states × characters`
table, `finalStates` the array of `numberOfFinalStates` accepting states,
`incompleteCells` the counter of cells not yet filled.  The field
invariants (`characters = characterSet.length` etc.) are not baked into
the type; they are established by `createDFA` and preserved by the
operations, which is proved where needed. -/
structure DFA where
  characters : Nat
  states : Nat
  initialState : Int
  numberOfFinalStates : Nat
  finalStates : List Int
  incompleteCells : Int
  characterSet : List Char
  transitionTable : List (List Int)
deriving DecidableEq, Repr

/-- Embeds `createDFA`: copies the final-state list and the alphabet,
allocates a `states × characters` table whose cells start at the
indeterminate values `g i j` (the contents `malloc` happened to leave
there), and sets the unset-cell counter to `states * characters`. -/
def createDFA (chars : List Char) (nStates : Nat) (initState : Int)
    (finStates : List Int) (g : Nat → Nat → Int) : DFA :=
  { characters := chars.length
    states := nStates
    initialState := initState
    numberOfFinalStates := finStates.length
    finalStates := finStates
    incompleteCells := (nStates * chars.length : Nat)
    characterSet := chars
    transitionTable :=
      (List.range nStates).map fun i => (List.range chars.length).map fun j => g i j }

/-- The search loop of `indexOf`: `cs` is the part of the alphabet not yet
scanned and `i` the current position.  Returns the position of the first
match, `-1` if the scan ends without one. -/
def indexOfAux (cs : List Char) (c : Char) (i : Nat) : Int :=
  match cs with
  | [] => -1
  | x :: xs => if c = x then (i : Int) else indexOfAux xs c (i + 1)

/-- Embeds `indexOf`: linear search of `c` over the alphabet array,
`-1` when absent.  (`createDFA` makes `characters` the length of
`characterSet` and no operation changes either field, so scanning the
list is scanning `characterSet[0] .. characterSet[characters-1]`.) -/
def indexOf (d : DFA) (c : Char) : Int :=
  indexOfAux d.characterSet c 0

/-- A single read `transitionTable[s][j]`.  `none` models the undefined
behaviour of reading a row outside `[0, table.length)`; an in-range read
yields the cell's current `Int` contents (set or indeterminate alike —
the program cannot tell them apart). -/
def readCell (t : List (List Int)) (s : Int) (j : Nat) : Option Int :=
  if s < 0 then none
  else
    match t[s.toNat]? with
    | none => none
    | some row => row[j]?

/-- A single write `transitionTable[s][j] = v`.  A write to a row outside
`[0, table.length)` is undefined behaviour in the C program; it is
modelled as leaving the table unchanged, and no claim exercises it. -/
def tableSet (t : List (List Int)) (s : Int) (j : Nat) (v : Int) : List (List Int) :=
  if s < 0 then t
  else
    match t[s.toNat]? with
    | none => t
    | some row => t.set s.toNat (row.set j v)

/-- Embeds `addTransition`: look the symbol up, return unchanged if it is
not in the alphabet, otherwise store the target in the table cell and
decrement the unset-cell counter — as in the source, on *every* such
call, whether or not the cell was already set. -/
def addTransition (d : DFA) (initState : Int) (inp : Char) (finalState : Int) : DFA :=
  let index := indexOf d inp
  if index < 0 then d
  else
    { d with
      transitionTable := tableSet d.transitionTable initState index.toNat finalState
      incompleteCells := d.incompleteCells - 1 }

/-- Result of the scanning loop of `checkString`: it either consumes the
whole string ending in state `s`, or stops at a character outside the
alphabet. -/
inductive RunRes where
  | ok : Int → RunRes
  | invalid : RunRes
deriving DecidableEq, Repr

/-- The `for` loop of `checkString`: from state `state`, consume the
input left to right; on a symbol outside the alphabet stop with
`invalid`; otherwise step through the table.  `none` propagates an
out-of-range table read (undefined behaviour in the source). -/
def checkStringLoop (d : DFA) (state : Int) : List Char → Option RunRes
  | [] => some (.ok state)
  | c :: rest =>
    let index := indexOf d c
    if index < 0 then some .invalid
    else
      match readCell d.transitionTable state index.toNat with
      | none => none
      | some v => checkStringLoop d v rest

/-- Embeds `checkString`.  Return values follow the source: `-22` for an
incomplete table (counter nonzero), `-20` for a character outside the
alphabet, `1` for accepted, `0` for not accepted; `none` marks an
out-of-range table access (undefined behaviour). -/
def checkString (d : DFA) (inp : List Char) : Option Int :=
  if d.incompleteCells ≠ 0 then some ERROR_INCOMPLETE_TABLE
  else
    match checkStringLoop d d.initialState inp with
    | none => none
    | some .invalid => some ERROR_INVALID_CHARACTER_IN_INPUT
    | some (.ok s) => some (if d.finalStates.contains s then 1 else 0)

/-- The sequence of values taken by the loop variable `state` of
`checkString`, in order, up to the point where the loop returns or
performs an out-of-range read.  Instrumentation over `checkStringLoop`,
used to state that evaluation keeps the current state in range. -/
def runStates (d : DFA) (state : Int) : List Char → List Int
  | [] => [state]
  | c :: rest =>
    let index := indexOf d c
    if index < 0 then [state]
    else
      match readCell d.transitionTable state index.toNat with
      | none => [state]
      | some v => state :: runStates d v rest

/-- A sequence of `addTransition` calls `(fromState, symbol, toState)`
applied in order, as the driver does after construction. -/
def applyTrace (d : DFA) (trace : List (Int × Char × Int)) : DFA :=
  trace.foldl (fun d e => addTransition d e.1 e.2.1 e.2.2) d

/-- The call sequence `trace` sets the table cell `(s, j)`: some call
names row `s` and a symbol whose alphabet position is `j`. -/
def cellSet (trace : List (Int × Char × Int)) (d : DFA) (s : Int) (j : Nat) : Prop :=
  ∃ e ∈ trace, e.1 = s ∧ indexOf d e.2.1 = (j : Int)

instance (trace : List (Int × Char × Int)) (d : DFA) (s : Int) (j : Nat) :
    Decidable (cellSet trace d s j) :=
  List.decidableBEx _ trace

/-- Modelled from the spec's algorithm for `CheckString` on a complete
automaton: `current := initialState`, then a strict left-to-right fold
over the input — look the symbol up, an absent symbol makes the outcome
`InvalidSymbol`, otherwise `current := table[current][symbolIndex]` —
and at the end `Accepted` (1) exactly when the resulting state is a
member of the accepting-state set, `Rejected` (0) otherwise.  Stated
over the same structure; compared with `checkString` below. -/
def specStep (d : DFA) (acc : Option RunRes) (c : Char) : Option RunRes :=
  match acc with
  | none => none
  | some .invalid => some .invalid
  | some (.ok s) =>
    let i := indexOf d c
    if i < 0 then some .invalid
    else
      match readCell d.transitionTable s i.toNat with
      | none => none
      | some v => some (.ok v)

/-- The spec-side evaluation: fold `specStep` from the initial state,
then the acceptance test. -/
def checkStringSpec (d : DFA) (inp : List Char) : Option Int :=
  match inp.foldl (specStep d) (some (.ok d.initialState)) with
  | none => none
  | some .invalid => some ERROR_INVALID_CHARACTER_IN_INPUT
  | some (.ok s) => some (if s ∈ d.finalStates then 1 else 0)

/-! ## Concrete automata used in the claims and witnesses -/

/-- A fixed choice of indeterminate initial table contents. -/
def gZero : Nat → Nat → Int := fun _ _ => 0

/-- The transition registrations of the binary-divisible-by-3 automaton:
δ(0,'0')=0, δ(0,'1')=1, δ(1,'0')=2, δ(1,'1')=0, δ(2,'0')=1, δ(2,'1')=2. -/
def div3Trace : List (Int × Char × Int) :=
  [(0, '0', 0), (0, '1', 1), (1, '0', 2), (1, '1', 0), (2, '0', 1), (2, '1', 2)]

/-- The end-to-end scenario automaton: alphabet "01", 3 states, initial
state 0, accepting set {0}, the six transitions each registered once. -/
def div3 : DFA :=
  applyTrace (createDFA ['0', '1'] 3 0 [0] gZero) div3Trace

/-- The same automaton built with the δ(2,'1') registration omitted. -/
def div3Missing : DFA :=
  applyTrace (createDFA ['0', '1'] 3 0 [0] gZero)
    [(0, '0', 0), (0, '1', 1), (1, '0', 2), (1, '1', 0), (2, '0', 1)]

/-- Two registrations of the same cell (0,'a') on a 2-state automaton
over alphabet "a": the counter reaches 0 although cell (1,'a') was never
set. -/
def c2Trace : List (Int × Char × Int) := [(0, 'a', 0), (0, 'a', 0)]

/-- The automaton reached by `c2Trace` from a fresh 2-state instance. -/
def dC2 : DFA := applyTrace (createDFA ['a'] 2 0 [] gZero) c2Trace

/-- A fresh 1-state automaton over alphabet "a" with accepting set {0},
whose single table cell starts at the indeterminate value 7. -/
def dC4 : DFA := createDFA ['a'] 1 0 [0] fun _ _ => 7

/-- A fresh 1-state automaton over alphabet "a": its single cell is
still unset, so the counter is 1. -/
def dIncomplete : DFA := createDFA ['a'] 1 0 [0] gZero

/-- Two registrations of cell (1,'a') on a 2-state automaton, leaving
cell (0,'a') unset while driving the counter to 0. -/
def c10Trace : List (Int × Char × Int) := [(1, 'a', 0), (1, 'a', 0)]

/-- The automaton reached by `c10Trace` from a fresh 2-state instance
whose indeterminate cell contents happen to be 5. -/
def dC10 : DFA := applyTrace (createDFA ['a'] 2 0 [] fun _ _ => 5) c10Trace

/-! ## Structural invariants of reachable automata

`createDFA` establishes these and no operation disturbs them; the
claims about evaluation on well-formed automata take them as
hypotheses, and concrete instances discharge them by `decide`. -/

/-- The struct's size fields agree with its arrays: `characters` is the
alphabet length, the table has `states` rows of `characters` cells. -/
def tableShape (d : DFA) : Prop :=
  d.characters = d.characterSet.length ∧
  d.transitionTable.length = d.states ∧
  ∀ row ∈ d.transitionTable, row.length = d.characters

instance (d : DFA) : Decidable (tableShape d) := by
  unfold tableShape; infer_instance

/-- Every cell of the table holds a state identifier in `[0, states)`. -/
def cellsInRange (d : DFA) : Prop :=
  ∀ row ∈ d.transitionTable, ∀ v ∈ row, 0 ≤ v ∧ v < (d.states : Int)

instance (d : DFA) : Decidable (cellsInRange d) := by
  unfold cellsInRange; infer_instance

/-! ## State-passing embedding

To state that `checkString` and `indexOf` do not mutate the automaton,
the same code is embedded a second time in state-passing style: every
step passes the struct along explicitly, and the result pairs the
return value with the struct as left behind by the call.  The purity
claims relate these to the direct embeddings above. -/

/-- `indexOf`'s loop, threading the struct. -/
def indexOfAuxSt (d : DFA) (cs : List Char) (c : Char) (i : Nat) : Int × DFA :=
  match cs with
  | [] => (-1, d)
  | x :: xs => if c = x then ((i : Int), d) else indexOfAuxSt d xs c (i + 1)

/-- `indexOf`, threading the struct. -/
def indexOfSt (d : DFA) (c : Char) : Int × DFA :=
  indexOfAuxSt d d.characterSet c 0

/-- The scanning loop of `checkString`, threading the struct through
the `indexOf` call and the table read of each iteration. -/
def checkStringLoopSt (d : DFA) (state : Int) : List Char → Option RunRes × DFA
  | [] => (some (.ok state), d)
  | c :: rest =>
    let p := indexOfSt d c
    if p.1 < 0 then (some .invalid, p.2)
    else
      match readCell p.2.transitionTable state p.1.toNat with
      | none => (none, p.2)
      | some v => checkStringLoopSt p.2 v rest

/-- `checkString`, threading the struct. -/
def checkStringSt (d : DFA) (inp : List Char) : Option Int × DFA :=
  if d.incompleteCells ≠ 0 then (some ERROR_INCOMPLETE_TABLE, d)
  else
    match checkStringLoopSt d d.initialState inp with
    | (none, d2) => (none, d2)
    | (some .invalid, d2) => (some ERROR_INVALID_CHARACTER_IN_INPUT, d2)
    | (some (.ok s), d2) => (some (if d2.finalStates.contains s then 1 else 0), d2)

/-! ## Lemmas about `indexOf` -/

theorem indexOfAux_of_not_mem {cs : List Char} {c : Char} (h : c ∉ cs) (i : Nat) :
    indexOfAux cs c i = -1 := by
  induction cs generalizing i with
  | nil => rfl
  | cons x xs ih =>
    simp only [List.mem_cons, not_or] at h
    simp [indexOfAux, h.1, ih h.2]

theorem indexOfAux_of_mem {cs : List Char} {c : Char} (h : c ∈ cs) (i : Nat) :
    indexOfAux cs c i = ((i + List.indexOf c cs : Nat) : Int) := by
  induction cs generalizing i with
  | nil => cases h
  | cons x xs ih =>
    by_cases hx : c = x
    · subst hx
      simp [indexOfAux, List.indexOf_cons_self]
    · have hmem : c ∈ xs := by
        rcases List.mem_cons.mp h with h' | h'
        · exact absurd h' hx
        · exact h'
      have hne : x ≠ c := fun he => hx he.symm
      rw [List.indexOf_cons_ne _ hne]
      simp only [indexOfAux, hx, if_false, ih hmem]
      push_cast
      ring

/-- `indexOf` in closed form: the position of the first occurrence, or
`-1` when the symbol is outside the alphabet. -/
theorem indexOf_eq (d : DFA) (c : Char) :
    indexOf d c =
      if c ∈ d.characterSet then ((List.indexOf c d.characterSet : Nat) : Int) else -1 := by
  by_cases h : c ∈ d.characterSet
  · simp [indexOf, indexOfAux_of_mem h, h]
  · simp [indexOf, indexOfAux_of_not_mem h, h]

theorem indexOf_neg_iff (d : DFA) (c : Char) : indexOf d c < 0 ↔ c ∉ d.characterSet := by
  rw [indexOf_eq]
  by_cases h : c ∈ d.characterSet <;> simp [h]

theorem indexOf_toNat_lt {d : DFA} {c : Char} (h : ¬ indexOf d c < 0) :
    (indexOf d c).toNat < d.characterSet.length := by
  have hmem : c ∈ d.characterSet := by
    by_contra hc
    exact h ((indexOf_neg_iff d c).mpr hc)
  rw [indexOf_eq, if_pos hmem]
  simpa using List.indexOf_lt_length.mpr hmem

/-! ## Preservation of the scalar fields -/

theorem addTransition_characterSet (d : DFA) (a : Int) (c : Char) (b : Int) :
    (addTransition d a c b).characterSet = d.characterSet := by
  simp only [addTransition]
  split <;> rfl

theorem addTransition_states (d : DFA) (a : Int) (c : Char) (b : Int) :
    (addTransition d a c b).states = d.states := by
  simp only [addTransition]
  split <;> rfl

theorem addTransition_initialState (d : DFA) (a : Int) (c : Char) (b : Int) :
    (addTransition d a c b).initialState = d.initialState := by
  simp only [addTransition]
  split <;> rfl

theorem addTransition_finalStates (d : DFA) (a : Int) (c : Char) (b : Int) :
    (addTransition d a c b).finalStates = d.finalStates := by
  simp only [addTransition]
  split <;> rfl

theorem addTransition_characters (d : DFA) (a : Int) (c : Char) (b : Int) :
    (addTransition d a c b).characters = d.characters := by
  simp only [addTransition]
  split <;> rfl

theorem indexOf_addTransition (d : DFA) (a : Int) (c : Char) (b : Int) (x : Char) :
    indexOf (addTransition d a c b) x = indexOf d x := by
  unfold indexOf
  rw [addTransition_characterSet]

theorem applyTrace_nil (d : DFA) : applyTrace d [] = d := rfl

theorem applyTrace_cons (d : DFA) (e : Int × Char × Int) (tr : List (Int × Char × Int)) :
    applyTrace d (e :: tr) = applyTrace (addTransition d e.1 e.2.1 e.2.2) tr := rfl

theorem cellSet_addTransition (tr : List (Int × Char × Int)) (d : DFA) (a : Int) (c : Char)
    (b : Int) (s : Int) (j : Nat) :
    cellSet tr (addTransition d a c b) s j ↔ cellSet tr d s j := by
  unfold cellSet
  simp only [indexOf_addTransition]

/-! ## Lemmas about table reads and writes -/

theorem readCell_mem {t : List (List Int)} {s : Int} {j : Nat}
    (hs0 : 0 ≤ s) (hs : s.toNat < t.length) (hrowlen : ∀ row ∈ t, j < row.length) :
    ∃ v row, readCell t s j = some v ∧ row ∈ t ∧ v ∈ row := by
  have hrow : t[s.toNat]? = some (t[s.toNat]) := List.getElem?_eq_getElem hs
  have hmemrow : t[s.toNat] ∈ t := List.getElem_mem hs
  have hj : j < (t[s.toNat]).length := hrowlen _ hmemrow
  refine ⟨(t[s.toNat])[j], t[s.toNat], ?_, hmemrow, List.getElem_mem hj⟩
  unfold readCell
  rw [if_neg (by omega), hrow]
  exact List.getElem?_eq_getElem hj

theorem readCell_tableSet_self {t : List (List Int)} {s : Int} {j : Nat} (v : Int)
    (hs0 : 0 ≤ s) (hs : s.toNat < t.length) (hrowlen : ∀ row ∈ t, j < row.length) :
    readCell (tableSet t s j v) s j = some v := by
  have hrow : t[s.toNat]? = some (t[s.toNat]) := List.getElem?_eq_getElem hs
  have hj : j < (t[s.toNat]).length := hrowlen _ (List.getElem_mem hs)
  unfold tableSet readCell
  rw [if_neg (by omega), if_neg (by omega), hrow]
  have h1 : (t.set s.toNat ((t[s.toNat]).set j v))[s.toNat]? = some ((t[s.toNat]).set j v) :=
    List.getElem?_set_eq_of_lt _ hs
  rw [h1]
  exact List.getElem?_set_eq_of_lt _ hj

theorem readCell_tableSet_ne {t : List (List Int)} {s' : Int} {j' : Nat} {v : Int}
    {s : Int} {j : Nat} (h : ¬(s' = s ∧ j' = j)) :
    readCell (tableSet t s' j' v) s j = readCell t s j := by
  unfold tableSet
  by_cases hs' : s' < 0
  · rw [if_pos hs']
  · rw [if_neg hs']
    cases hrow : t[s'.toNat]? with
    | none => rfl
    | some row =>
      unfold readCell
      by_cases hsneg : s < 0
      · rw [if_pos hsneg, if_pos hsneg]
      · rw [if_neg hsneg, if_neg hsneg]
        by_cases hss : s' = s
        · subst hss
          have hj : j' ≠ j := fun hj => h ⟨rfl, hj⟩
          rw [List.getElem?_set_eq_of_lt _ (List.getElem?_eq_some.mp hrow).1, hrow]
          exact List.getElem?_set_ne hj
        · have : s'.toNat ≠ s.toNat := by omega
          rw [List.getElem?_set_ne this]

theorem tableSet_length (t : List (List Int)) (s : Int) (j : Nat) (v : Int) :
    (tableSet t s j v).length = t.length := by
  unfold tableSet
  split
  · rfl
  · split <;> simp

theorem mem_tableSet {t : List (List Int)} {s : Int} {j : Nat} {v : Int} {row' : List Int}
    (h : row' ∈ tableSet t s j v) : row' ∈ t ∨ ∃ row ∈ t, row' = row.set j v := by
  unfold tableSet at h
  split at h
  · exact Or.inl h
  · revert h
    split
    · exact fun h => Or.inl h
    · intro h
      rcases List.mem_or_eq_of_mem_set h with h' | h'
      · exact Or.inl h'
      · rename_i row hrow
        exact Or.inr ⟨row, List.getElem?_mem hrow, h'⟩

/-! ## Preservation of `tableShape` -/

theorem tableShape_createDFA (chars : List Char) (nStates : Nat) (initState : Int)
    (fins : List Int) (g : Nat → Nat → Int) :
    tableShape (createDFA chars nStates initState fins g) := by
  refine ⟨rfl, by simp [createDFA], ?_⟩
  intro row hrow
  simp only [createDFA, List.mem_map] at hrow
  obtain ⟨i, _, rfl⟩ := hrow
  simp [createDFA]

theorem tableShape_addTransition {d : DFA} (h : tableShape d) (a : Int) (c : Char) (b : Int) :
    tableShape (addTransition d a c b) := by
  obtain ⟨h1, h2, h3⟩ := h
  simp only [addTransition]
  split
  · exact ⟨h1, h2, h3⟩
  · refine ⟨h1, ?_, ?_⟩
    · simpa [tableSet_length] using h2
    · intro row hrow
      rcases mem_tableSet hrow with hr | ⟨r0, hr0, rfl⟩
      · exact h3 _ hr
      · simpa using h3 _ hr0

theorem tableShape_applyTrace {d : DFA} (h : tableShape d) (tr : List (Int × Char × Int)) :
    tableShape (applyTrace d tr) := by
  induction tr generalizing d with
  | nil => exact h
  | cons e rest ih => exact ih (tableShape_addTransition h _ _ _)

/-! ## Cells after a registration sequence -/

theorem applyTrace_readCell_frame :
    ∀ (tr : List (Int × Char × Int)) (d : DFA) (s : Int) (j : Nat), ¬ cellSet tr d s j →
      readCell (applyTrace d tr).transitionTable s j = readCell d.transitionTable s j := by
  intro tr
  induction tr with
  | nil => intro d s j _; rfl
  | cons e rest ih =>
    intro d s j h
    have hrest : ¬ cellSet rest d s j := by
      intro ⟨x, hx, hp⟩
      exact h ⟨x, List.mem_cons_of_mem _ hx, hp⟩
    rw [applyTrace_cons, ih _ _ _ (by rwa [cellSet_addTransition])]
    simp only [addTransition]
    split
    · rfl
    · rename_i hidx
      apply readCell_tableSet_ne
      intro ⟨hs, hj⟩
      exact h ⟨e, List.mem_cons_self _ _, hs, by omega⟩

theorem applyTrace_readCell_of_cellSet :
    ∀ (tr : List (Int × Char × Int)) (d : DFA), tableShape d →
      (∀ e ∈ tr, 0 ≤ e.2.2 ∧ e.2.2 < (d.states : Int)) →
      ∀ (s : Int) (j : Nat), 0 ≤ s → s < (d.states : Int) → j < d.characters →
        cellSet tr d s j →
        ∃ v, readCell (applyTrace d tr).transitionTable s j = some v ∧
          0 ≤ v ∧ v < (d.states : Int) := by
  intro tr
  induction tr with
  | nil =>
    intro d _ _ s j _ _ _ hset
    obtain ⟨e, he, _⟩ := hset
    simp at he
  | cons e rest ih =>
    intro d hsh htr s j hs0 hs hj hset
    have hsh' : tableShape (addTransition d e.1 e.2.1 e.2.2) :=
      tableShape_addTransition hsh _ _ _
    have hstates : (addTransition d e.1 e.2.1 e.2.2).states = d.states :=
      addTransition_states _ _ _ _
    have hchars : (addTransition d e.1 e.2.1 e.2.2).characters = d.characters :=
      addTransition_characters _ _ _ _
    rw [applyTrace_cons]
    by_cases hrest : cellSet rest d s j
    · obtain ⟨v, hv, hv0, hv1⟩ :=
        ih (addTransition d e.1 e.2.1 e.2.2) hsh'
          (fun e' he' => by rw [hstates]; exact htr e' (List.mem_cons_of_mem _ he'))
          s j hs0 (by rwa [hstates]) (by rwa [hchars])
          ((cellSet_addTransition _ _ _ _ _ _ _).mpr hrest)
      exact ⟨v, hv, hv0, by rwa [hstates] at hv1⟩
    · obtain ⟨x, hx, hx1, hx2⟩ := hset
      rcases List.mem_cons.mp hx with rfl | hxr
      · -- the head call writes exactly this cell, and the rest leaves it alone
        have hcell : readCell (addTransition d x.1 x.2.1 x.2.2).transitionTable s j
            = some x.2.2 := by
          simp only [addTransition]
          rw [if_neg (by omega)]
          have htn : (indexOf d x.2.1).toNat = j := by omega
          rw [hx1, htn]
          apply readCell_tableSet_self _ hs0
          · rw [hsh.2.1]; omega
          · intro row hrow
            rw [hsh.2.2 row hrow]; exact hj
        rw [applyTrace_readCell_frame rest _ s j
          (by rw [cellSet_addTransition]; exact hrest), hcell]
        exact ⟨x.2.2, rfl, (htr x (List.mem_cons_self _ _)).1, (htr x (List.mem_cons_self _ _)).2⟩
      · exact absurd ⟨x, hxr, hx1, hx2⟩ hrest

/-! ## The scanning loop on a well-formed complete table -/

theorem readCell_of_cellsInRange {d : DFA} (hsh : tableShape d) (hr : cellsInRange d)
    (s : Int) (j : Nat) (h0 : 0 ≤ s) (h1 : s < (d.states : Int)) (hj : j < d.characters) :
    ∃ v, readCell d.transitionTable s j = some v ∧ 0 ≤ v ∧ v < (d.states : Int) := by
  have hslen : s.toNat < d.transitionTable.length := by rw [hsh.2.1]; omega
  obtain ⟨v, row, hv, hrow, hvr⟩ :=
    readCell_mem h0 hslen (fun row hrow => by rw [hsh.2.2 row hrow]; exact hj)
  exact ⟨v, hv, hr row hrow v hvr⟩

theorem checkStringLoop_safe (d : DFA) (hsh : tableShape d)
    (hcell : ∀ (s : Int) (j : Nat), 0 ≤ s → s < (d.states : Int) → j < d.characters →
      ∃ v, readCell d.transitionTable s j = some v ∧ 0 ≤ v ∧ v < (d.states : Int)) :
    ∀ (inp : List Char) (s : Int), 0 ≤ s → s < (d.states : Int) →
      checkStringLoop d s inp ≠ none ∧
      ∀ x ∈ runStates d s inp, 0 ≤ x ∧ x < (d.states : Int) := by
  intro inp
  induction inp with
  | nil =>
    intro s h0 h1
    refine ⟨by simp [checkStringLoop], ?_⟩
    intro x hx
    simp only [runStates, List.mem_singleton] at hx
    subst hx
    exact ⟨h0, h1⟩
  | cons c rest ih =>
    intro s h0 h1
    by_cases hidx : indexOf d c < 0
    · refine ⟨by simp [checkStringLoop, hidx], ?_⟩
      intro x hx
      simp only [runStates, hidx, if_true, List.mem_singleton] at hx
      subst hx
      exact ⟨h0, h1⟩
    · have hj : (indexOf d c).toNat < d.characters := by
        have := indexOf_toNat_lt hidx
        rw [hsh.1]
        exact this
      obtain ⟨v, hv, hv0, hv1⟩ := hcell s (indexOf d c).toNat h0 h1 hj
      obtain ⟨ih1, ih2⟩ := ih v hv0 hv1
      constructor
      · simp only [checkStringLoop, hidx, if_false, hv]
        exact ih1
      · simp only [runStates, hidx, if_false, hv]
        intro x hx
        rcases List.mem_cons.mp hx with rfl | hx'
        · exact ⟨h0, h1⟩
        · exact ih2 x hx'

/-! ## Preservation of the scalar fields by `applyTrace` -/

theorem applyTrace_states (tr : List (Int × Char × Int)) (d : DFA) :
    (applyTrace d tr).states = d.states := by
  induction tr generalizing d with
  | nil => rfl
  | cons e rest ih => rw [applyTrace_cons, ih, addTransition_states]

theorem applyTrace_characters (tr : List (Int × Char × Int)) (d : DFA) :
    (applyTrace d tr).characters = d.characters := by
  induction tr generalizing d with
  | nil => rfl
  | cons e rest ih => rw [applyTrace_cons, ih, addTransition_characters]

theorem applyTrace_initialState (tr : List (Int × Char × Int)) (d : DFA) :
    (applyTrace d tr).initialState = d.initialState := by
  induction tr generalizing d with
  | nil => rfl
  | cons e rest ih => rw [applyTrace_cons, ih, addTransition_initialState]

theorem applyTrace_characterSet (tr : List (Int × Char × Int)) (d : DFA) :
    (applyTrace d tr).characterSet = d.characterSet := by
  induction tr generalizing d with
  | nil => rfl
  | cons e rest ih => rw [applyTrace_cons, ih, addTransition_characterSet]

/-! ## The spec-side fold versus the loop -/

theorem foldl_specStep_none (d : DFA) (l : List Char) :
    l.foldl (specStep d) none = none := by
  induction l with
  | nil => rfl
  | cons c rest ih =>
    simp only [List.foldl_cons, specStep]
    exact ih

theorem foldl_specStep_invalid (d : DFA) (l : List Char) :
    l.foldl (specStep d) (some .invalid) = some .invalid := by
  induction l with
  | nil => rfl
  | cons c rest ih =>
    simp only [List.foldl_cons, specStep]
    exact ih

theorem foldl_specStep_ok (d : DFA) :
    ∀ (l : List Char) (s : Int),
      l.foldl (specStep d) (some (.ok s)) = checkStringLoop d s l := by
  intro l
  induction l with
  | nil => intro s; rfl
  | cons c rest ih =>
    intro s
    by_cases hidx : indexOf d c < 0
    · simp [List.foldl_cons, specStep, checkStringLoop, hidx, foldl_specStep_invalid]
    · cases hv : readCell d.transitionTable s (indexOf d c).toNat with
      | none => simp [List.foldl_cons, specStep, checkStringLoop, hidx, hv, foldl_specStep_none]
      | some v => simp [List.foldl_cons, specStep, checkStringLoop, hidx, hv, ih]

/-! ## The state-passing embedding projects to the direct one -/

theorem indexOfAuxSt_eq (d : DFA) (cs : List Char) (c : Char) (i : Nat) :
    indexOfAuxSt d cs c i = (indexOfAux cs c i, d) := by
  induction cs generalizing i with
  | nil => rfl
  | cons x xs ih => by_cases h : c = x <;> simp [indexOfAuxSt, indexOfAux, h, ih]

theorem indexOfSt_eq (d : DFA) (c : Char) : indexOfSt d c = (indexOf d c, d) :=
  indexOfAuxSt_eq d d.characterSet c 0

theorem checkStringLoopSt_eq (d : DFA) :
    ∀ (inp : List Char) (s : Int),
      checkStringLoopSt d s inp = (checkStringLoop d s inp, d) := by
  intro inp
  induction inp with
  | nil => intro s; rfl
  | cons c rest ih =>
    intro s
    simp only [checkStringLoopSt, checkStringLoop, indexOfSt_eq]
    by_cases hidx : indexOf d c < 0
    · simp [hidx]
    · simp only [hidx, if_false]
      cases hv : readCell d.transitionTable s (indexOf d c).toNat <;> simp [hv, ih]

theorem checkStringSt_eq (d : DFA) (inp : List Char) :
    checkStringSt d inp = (checkString d inp, d) := by
  unfold checkStringSt checkString
  by_cases hc : d.incompleteCells ≠ 0
  · simp [hc]
  · simp only [hc, if_false]
    rw [checkStringLoopSt_eq]
    cases h : checkStringLoop d d.initialState inp with
    | none => rfl
    | some r => cases r <;> rfl

/-! ## Claim theorems -/


/-- C2: the totality invariant fails on the code.  After registering the
same cell twice on a 2-state automaton, the unset-cell counter is 0
although cell (1,'a') was never set by any call, and `checkString`
returns 0 (Rejected) instead of `IncompleteTable`. -/
theorem checkString_totality_invariant_fails :
    dC2.incompleteCells = 0 ∧
    ¬ cellSet c2Trace dC2 1 0 ∧
    checkString dC2 [] = some 0 ∧
    checkString dC2 [] ≠ some ERROR_INCOMPLETE_TABLE := by decide

/-- C4: re-registering the same (state, symbol) pair with a different
target decrements the counter again — after the first call it is 0, after
the second it is −1, not 0 as the claim states — while the table cell
does hold the most recently registered target. -/
theorem addTransition_double_decrement :
    (addTransition dC4 0 'a' 0).incompleteCells = 0 ∧
    (addTransition (addTransition dC4 0 'a' 0) 0 'a' 1).incompleteCells = -1 ∧
    readCell (addTransition (addTransition dC4 0 'a' 0) 0 'a' 1).transitionTable 0 0
      = some 1 := by decide

/-- C5: the end-to-end scenario.  On the divisible-by-3 automaton,
"110" is accepted (1), "101" is rejected (0), "102" hits an invalid
symbol (−20); with the δ(2,'1') registration omitted, "0" reports an
incomplete table (−22). -/
theorem div3_scenario :
    checkString div3 ['1', '1', '0'] = some 1 ∧
    checkString div3 ['1', '0', '1'] = some 0 ∧
    checkString div3 ['1', '0', '2'] = some ERROR_INVALID_CHARACTER_IN_INPUT ∧
    checkString div3Missing ['0'] = some ERROR_INCOMPLETE_TABLE := by decide

/-- C3, counterexample: on an automaton whose table is not complete, an
input containing a character outside the alphabet yields
`IncompleteTable`, not `InvalidSymbol` — the completeness check runs
first, so the claim's "regardless of table completeness" is false. -/
theorem incomplete_beats_invalid_symbol :
    'b' ∉ dIncomplete.characterSet ∧
    checkString dIncomplete ['b'] = some ERROR_INCOMPLETE_TABLE ∧
    checkString dIncomplete ['b'] ≠ some ERROR_INVALID_CHARACTER_IN_INPUT := by decide

/-- C10, counterexample: an automaton built by `createDFA` (2 states,
alphabet "a", initial state 0 in range) and `addTransition` calls whose
states are all in range, on which evaluation still leaves the state
range: duplicate registration drives the counter to 0 with cell (0,'a')
unset, the evaluation of "aa" reads that cell's indeterminate contents
(here 5), takes 5 as the current state, and the next step's table access
is out of bounds (`none`). -/
theorem checkString_state_escapes_range :
    (∀ e ∈ c10Trace,
      (0 ≤ e.1 ∧ e.1 < (dC10.states : Int)) ∧ (0 ≤ e.2.2 ∧ e.2.2 < (dC10.states : Int))) ∧
    0 ≤ dC10.initialState ∧ dC10.initialState < (dC10.states : Int) ∧
    (5 : Int) ∈ runStates dC10 dC10.initialState ['a', 'a'] ∧
    ¬ (5 : Int) < (dC10.states : Int) ∧
    checkStringLoop dC10 dC10.initialState ['a', 'a'] = none := by decide

/-- C1: on any automaton whose unset-cell counter is zero, `checkString`
is exactly the spec's evaluation: current state starts at the initial
state, the input is folded strictly left to right — each symbol is looked
up with `indexOf`, an absent symbol makes the outcome `InvalidSymbol`,
otherwise the current state becomes `table[current][symbolIndex]` — and
the final outcome is `Accepted` (1) exactly when the resulting state is
in the accepting-state set, `Rejected` (0) otherwise. -/
theorem checkString_eq_spec_fold (d : DFA) (hc : d.incompleteCells = 0) (inp : List Char) :
    checkString d inp = checkStringSpec d inp := by
  unfold checkString checkStringSpec
  rw [if_neg (by simp [hc]), foldl_specStep_ok]
  cases h : checkStringLoop d d.initialState inp with
  | none => rfl
  | some r =>
    cases r with
    | invalid => rfl
    | ok s => simp [List.elem_iff]

/-- Witness for C1 at the divisible-by-3 automaton and input "110". -/
theorem checkString_eq_spec_fold_witness :
    div3.incompleteCells = 0 ∧
      checkString div3 ['1', '1', '0'] = checkStringSpec div3 ['1', '1', '0'] :=
  ⟨by decide, checkString_eq_spec_fold div3 (by decide) ['1', '1', '0']⟩

/-- C3 (amended): on an automaton whose unset-cell counter is zero,
whose size fields match its arrays and whose table cells all hold states
in range (as any fully registered automaton's do), an input made of a
prefix of alphabet symbols, then a symbol outside the alphabet, then an
arbitrary suffix evaluates to `InvalidSymbol` (−20): the scan stops at
the first invalid character and the suffix never influences the result.
The original claim's "regardless of table completeness" is refuted by
`incomplete_beats_invalid_symbol`. -/
theorem checkString_invalid_short_circuit (d : DFA)
    (hc : d.incompleteCells = 0) (hsh : tableShape d) (hr : cellsInRange d)
    (h0 : 0 ≤ d.initialState) (h1 : d.initialState < (d.states : Int))
    (pre : List Char) (hpre : ∀ x ∈ pre, x ∈ d.characterSet)
    (c : Char) (hinv : c ∉ d.characterSet) (suf : List Char) :
    checkString d (pre ++ c :: suf) = some ERROR_INVALID_CHARACTER_IN_INPUT := by
  have hloop : ∀ (p : List Char) (s : Int), 0 ≤ s → s < (d.states : Int) →
      (∀ x ∈ p, x ∈ d.characterSet) →
      checkStringLoop d s (p ++ c :: suf) = some .invalid := by
    intro p
    induction p with
    | nil =>
      intro s _ _ _
      have hi : indexOf d c < 0 := (indexOf_neg_iff d c).mpr hinv
      simp [checkStringLoop, hi]
    | cons x xs ih =>
      intro s hs0 hs1 hmem
      have hx : x ∈ d.characterSet := hmem x (List.mem_cons_self _ _)
      have hidx : ¬ indexOf d x < 0 := by
        rw [indexOf_neg_iff]
        exact fun h => h hx
      have hj : (indexOf d x).toNat < d.characters := by
        have := indexOf_toNat_lt hidx
        rw [hsh.1]
        exact this
      obtain ⟨v, hv, hv0, hv1⟩ := readCell_of_cellsInRange hsh hr s _ hs0 hs1 hj
      simp only [List.cons_append, checkStringLoop, hidx, if_false, hv]
      exact ih v hv0 hv1 (fun y hy => hmem y (List.mem_cons_of_mem _ hy))
  unfold checkString
  rw [if_neg (by simp [hc]), hloop pre d.initialState h0 h1 hpre]

/-- Witness for C3's amended theorem: on the divisible-by-3 automaton,
"10" then the invalid '2' then a further "1" yields −20. -/
theorem checkString_invalid_short_circuit_witness :
    (div3.incompleteCells = 0 ∧ tableShape div3 ∧ cellsInRange div3 ∧
      0 ≤ div3.initialState ∧ div3.initialState < (div3.states : Int) ∧
      (∀ x ∈ ['1', '0'], x ∈ div3.characterSet) ∧ '2' ∉ div3.characterSet) ∧
    checkString div3 (['1', '0'] ++ '2' :: ['1']) = some ERROR_INVALID_CHARACTER_IN_INPUT :=
  ⟨by decide,
   checkString_invalid_short_circuit div3 (by decide) (by decide) (by decide)
     (by decide) (by decide) ['1', '0'] (by decide) '2' (by decide) ['1']⟩

/-- C6: on an automaton whose unset-cell counter is zero, the empty
string is Accepted (1) exactly when the initial state is in the
accepting-state set, and Rejected (0) exactly otherwise. -/
theorem checkString_empty_iff (d : DFA) (hc : d.incompleteCells = 0) :
    (checkString d [] = some 1 ↔ d.initialState ∈ d.finalStates) ∧
    (checkString d [] = some 0 ↔ d.initialState ∉ d.finalStates) := by
  unfold checkString
  rw [if_neg (by simp [hc])]
  simp only [checkStringLoop]
  by_cases h : d.initialState ∈ d.finalStates <;>
    constructor <;> simp [h, List.elem_iff]

/-- Witness for C6 at the divisible-by-3 automaton, whose initial state
0 is accepting. -/
theorem checkString_empty_iff_witness :
    div3.incompleteCells = 0 ∧
      ((checkString div3 [] = some 1 ↔ div3.initialState ∈ div3.finalStates) ∧
       (checkString div3 [] = some 0 ↔ div3.initialState ∉ div3.finalStates)) :=
  ⟨by decide, checkString_empty_iff div3 (by decide)⟩

/-- C7: registering a transition on a symbol outside the alphabet is a
silent no-op — the automaton, its table and its counter are returned
exactly as they were. -/
theorem addTransition_unknown_symbol_noop (d : DFA) (s tgt : Int) (c : Char)
    (h : c ∉ d.characterSet) : addTransition d s c tgt = d := by
  have hi : indexOf d c < 0 := (indexOf_neg_iff d c).mpr h
  simp [addTransition, hi]

/-- Witness for C7: 'x' is outside the divisible-by-3 automaton's
alphabet, and registering it changes nothing. -/
theorem addTransition_unknown_symbol_noop_witness :
    'x' ∉ div3.characterSet ∧ addTransition div3 0 'x' 5 = div3 :=
  ⟨by decide, addTransition_unknown_symbol_noop div3 0 5 'x' (by decide)⟩

/-- C8: `checkString` does not mutate the automaton.  In the
state-passing embedding the struct comes back exactly as it went in, the
result is the one of the direct (pure) embedding, and a call evaluated
after any other call on the same automaton returns the same result —
repeated or interleaved evaluations cannot influence one another. -/
theorem checkString_pure (d : DFA) (inp inp2 : List Char) :
    (checkStringSt d inp).2 = d ∧
    (checkStringSt d inp).1 = checkString d inp ∧
    (checkStringSt ((checkStringSt d inp2).2) inp).1 = (checkStringSt d inp).1 := by
  simp [checkStringSt_eq]

/-- C9: `indexOf` is a pure linear search: it leaves the automaton
untouched and returns the position of the first occurrence of the
character in the alphabet, `-1` when the character is absent. -/
theorem indexOf_linear_search (d : DFA) (c : Char) :
    (indexOfSt d c).2 = d ∧
    indexOf d c =
      if c ∈ d.characterSet then ((List.indexOf c d.characterSet : Nat) : Int) else -1 :=
  ⟨by rw [indexOfSt_eq], indexOf_eq d c⟩

/-- C10 (amended): for an automaton built by `createDFA` with a positive
state count and nonempty alphabet, an in-range initial state, every
registration supplying in-range states, and — the amendment — every
(state, symbol) cell actually registered at least once, every table
access of evaluation is in bounds: `indexOf` yields `-1` or a column in
`[0, characters)`, the loop's current state stays in `[0, states)`
throughout, and no out-of-range read occurs.  Without the amendment the
statement is refuted by `checkString_state_escapes_range`. -/
theorem checkString_bounds_safe (chars : List Char) (nStates : Nat) (initState : Int)
    (fins : List Int) (g : Nat → Nat → Int) (trace : List (Int × Char × Int))
    (d : DFA) (inp : List Char)
    (hd : d = applyTrace (createDFA chars nStates initState fins g) trace)
    (_hn : 0 < nStates) (_hab : chars ≠ [])
    (h0 : 0 ≤ initState) (h1 : initState < (nStates : Int))
    (htr : ∀ e ∈ trace,
      (0 ≤ e.1 ∧ e.1 < (nStates : Int)) ∧ (0 ≤ e.2.2 ∧ e.2.2 < (nStates : Int)))
    (hfull : ∀ s : Nat, s < nStates → ∀ j : Nat, j < chars.length →
      cellSet trace (createDFA chars nStates initState fins g) (s : Int) j) :
    (∀ c : Char, indexOf d c = -1 ∨
      (0 ≤ indexOf d c ∧ indexOf d c < (d.characters : Int))) ∧
    (∀ x ∈ runStates d d.initialState inp, 0 ≤ x ∧ x < (d.states : Int)) ∧
    checkStringLoop d d.initialState inp ≠ none := by
  have hsh : tableShape d := hd ▸ tableShape_applyTrace (tableShape_createDFA _ _ _ _ _) _
  have hst : d.states = nStates := by
    rw [hd, applyTrace_states]
    rfl
  have hch : d.characters = chars.length := by
    rw [hd, applyTrace_characters]
    rfl
  have hinit : d.initialState = initState := by
    rw [hd, applyTrace_initialState]
    rfl
  have hcell : ∀ (s : Int) (j : Nat), 0 ≤ s → s < (d.states : Int) → j < d.characters →
      ∃ v, readCell d.transitionTable s j = some v ∧ 0 ≤ v ∧ v < (d.states : Int) := by
    intro s j hs0 hs1 hj
    have hsn : s.toNat < nStates := by omega
    have hset : cellSet trace (createDFA chars nStates initState fins g) s j := by
      have := hfull s.toNat hsn j (by omega)
      rwa [Int.toNat_of_nonneg hs0] at this
    obtain ⟨v, hv, hv0, hv1⟩ :=
      applyTrace_readCell_of_cellSet trace (createDFA chars nStates initState fins g)
        (tableShape_createDFA _ _ _ _ _)
        (fun e he => (htr e he).2) s j hs0 (by rwa [hst] at hs1) (by rwa [hch] at hj) hset
    rw [hd]
    exact ⟨v, hv, hv0, by rw [applyTrace_states]; exact hv1⟩
  refine ⟨?_, ?_, ?_⟩
  · intro c
    by_cases hmem : c ∈ d.characterSet
    · right
      rw [indexOf_eq, if_pos hmem]
      have := List.indexOf_lt_length.mpr hmem
      have hlen : d.characterSet.length = d.characters := (hsh.1).symm
      omega
    · left
      rw [indexOf_eq, if_neg hmem]
  · intro x hx
    exact (checkStringLoop_safe d hsh hcell inp d.initialState
      (by omega) (by rw [hst]; omega)).2 x hx
  · exact (checkStringLoop_safe d hsh hcell inp d.initialState
      (by omega) (by rw [hst]; omega)).1

/-- Witness for C10's amended theorem at the fully registered
divisible-by-3 automaton. -/
theorem checkString_bounds_safe_witness :
    (∀ x ∈ runStates div3 div3.initialState ['1', '0', '1'],
      0 ≤ x ∧ x < (div3.states : Int)) ∧
    checkStringLoop div3 div3.initialState ['1', '0', '1'] ≠ none :=
  (checkString_bounds_safe ['0', '1'] 3 0 [0] gZero div3Trace div3 ['1', '0', '1']
    rfl (by decide) (by decide) (by decide) (by decide) (by decide) (by decide)).2

end DFAC
